import Mathlib

/-!
# A hash-linked ledger of book checkouts (`main.go`)

Shallow embedding of the ledger core of `main.go`: the types `bookCheckout`,
`block` and `blockChain`, the methods `generateHash`, `validateHash` and
`AddBlock`, and the functions `createBlock`, `validBlock`, `genesisBlock` and
`NewBlockchain`.

Modelling conventions.

* A Go `string` is an immutable sequence of bytes: `GoString`.
* A Go `int` is a 64-bit two's complement integer: an `Int`, with every
  addition of the source wrapped by `wrapInt`.
* `time.Now().String()` is an input of the function that calls it (`now`).
* `*block` values are modelled by value.  The only write of the ledger core to
  an existing block is `b.Hash = ...` in `generateHash`, on its receiver; a
  function that calls it returns the new state of that block next to its own
  result.  A nil `*block`, which the ledger core never makes, is not modelled.
* The standard library functions used by `generateHash` are modelled
  concretely: the conversion `string(int)`, `json.Marshal` (as in the
  toolchains Go 1.22 to 1.26), SHA-256 and `hex.EncodeToString`.
-/

/-! ## Go strings and integers -/

/-- A Go `string`: a sequence of bytes. -/
abbrev GoString := List (Fin 256)

/-- The byte with value `n % 256`. -/
def byteOfNat (n : Nat) : Fin 256 := ⟨n % 256, Nat.mod_lt _ (by decide)⟩

/-- UTF-8 encoding of the code point `c` (`utf8.EncodeRune` on a valid rune). -/
def encodeRune (c : Nat) : GoString :=
  if c < 0x80 then [byteOfNat c]
  else if c < 0x800 then [byteOfNat (0xC0 + c / 64), byteOfNat (0x80 + c % 64)]
  else if c < 0x10000 then
    [byteOfNat (0xE0 + c / 4096), byteOfNat (0x80 + c / 64 % 64), byteOfNat (0x80 + c % 64)]
  else
    [byteOfNat (0xF0 + c / 262144), byteOfNat (0x80 + c / 4096 % 64),
     byteOfNat (0x80 + c / 64 % 64), byteOfNat (0x80 + c % 64)]

/-- The bytes of a string literal (its UTF-8 encoding). -/
def ofString (s : String) : GoString := s.toList.flatMap fun c => encodeRune c.toNat

/-- Wrap an integer into the range of a 64-bit Go `int`. -/
def wrapInt (x : Int) : Int := (x + 9223372036854775808) % 18446744073709551616 - 9223372036854775808

/-- Go `+` on `int`. -/
def intAdd (x y : Int) : Int := wrapInt (x + y)

/-- The rune `utf8.RuneError`, U+FFFD. -/
def runeError : Nat := 0xFFFD

/-- The Go conversion `string(v)` of an `int`: the UTF-8 encoding of the code
point `v`, and of U+FFFD when `v` is not a valid code point. -/
def intToString (v : Int) : GoString :=
  if 0 ≤ v ∧ v ≤ 0x10FFFF ∧ ¬ (0xD800 ≤ v ∧ v ≤ 0xDFFF) then encodeRune v.toNat
  else encodeRune runeError

/-! ## SHA-256 (FIPS 180-4) and hex encoding -/

/-- The first sixty-four primes. -/
def shaPrimes : List Nat :=
  [2, 3, 5, 7, 11, 13, 17, 19, 23, 29, 31, 37, 41, 43, 47, 53, 59, 61, 67, 71, 73, 79, 83, 89,
   97, 101, 103, 107, 109, 113, 127, 131, 137, 139, 149, 151, 157, 163, 167, 173, 179, 181,
   191, 193, 197, 199, 211, 223, 227, 229, 233, 239, 241, 251, 257, 263, 269, 271, 277, 281,
   283, 293, 307, 311]

/-- The largest `r` above the start value with `r ^ k ≤ n`, found by trying
the bits below `bit` from the top down. -/
def rootBits (k n : Nat) : Nat → Nat → Nat
  | 0, r => r
  | bit + 1, r =>
    if (r + 2 ^ bit) ^ k ≤ n then rootBits k n bit (r + 2 ^ bit) else rootBits k n bit r

/-- The first thirty-two bits of the fractional part of the `k`-th root of `p`. -/
def fracRootWord (k p : Nat) : Nat := rootBits k (p * 2 ^ (32 * k)) 40 0 % 2 ^ 32

/-- The round constants of SHA-256: the fractional parts of the cube roots of
the first sixty-four primes. -/
def K256 : List Nat := shaPrimes.map (fracRootWord 3)

/-- Rotate the 32-bit word `x` right by `n` bits. -/
def rotr32 (x n : Nat) : Nat := ((x >>> n) ||| (x <<< (32 - n))) % 2 ^ 32

/-- Addition of 32-bit words. -/
def add32 (x y : Nat) : Nat := (x + y) % 2 ^ 32

/-- Complement of a 32-bit word. -/
def not32 (x : Nat) : Nat := x ^^^ 0xffffffff

/-- The eight working words of SHA-256. -/
structure ShaState where
  a : Nat
  b : Nat
  c : Nat
  d : Nat
  e : Nat
  f : Nat
  g : Nat
  h : Nat
deriving DecidableEq

/-- The initial hash value of SHA-256: the fractional parts of the square
roots of the first eight primes. -/
def shaInit : ShaState :=
  ⟨fracRootWord 2 2, fracRootWord 2 3, fracRootWord 2 5, fracRootWord 2 7,
   fracRootWord 2 11, fracRootWord 2 13, fracRootWord 2 17, fracRootWord 2 19⟩

/-- One round of the compression function, with round constant `k` and
schedule word `w`. -/
def shaRound (s : ShaState) (k w : Nat) : ShaState :=
  let S1 := rotr32 s.e 6 ^^^ rotr32 s.e 11 ^^^ rotr32 s.e 25
  let ch := (s.e &&& s.f) ^^^ (not32 s.e &&& s.g)
  let t1 := add32 (add32 (add32 (add32 s.h S1) ch) k) w
  let S0 := rotr32 s.a 2 ^^^ rotr32 s.a 13 ^^^ rotr32 s.a 22
  let maj := (s.a &&& s.b) ^^^ (s.a &&& s.c) ^^^ (s.b &&& s.c)
  let t2 := add32 S0 maj
  ⟨add32 t1 t2, s.a, s.b, s.c, add32 s.d t1, s.e, s.f, s.g⟩

/-- The rounds of the compression function, one per constant and word. -/
def shaRounds (s : ShaState) : List Nat → List Nat → ShaState
  | k :: ks, w :: ws => shaRounds (shaRound s k w) ks ws
  | _, _ => s

/-- Extend the message schedule by `n` words; `rev` holds the words computed
so far, newest first. -/
def shaSchedule : Nat → List Nat → List Nat
  | 0, rev => rev.reverse
  | n + 1, rev =>
    let w2 := rev.getD 1 0
    let w7 := rev.getD 6 0
    let w15 := rev.getD 14 0
    let w16 := rev.getD 15 0
    let s0 := rotr32 w15 7 ^^^ rotr32 w15 18 ^^^ (w15 >>> 3)
    let s1 := rotr32 w2 17 ^^^ rotr32 w2 19 ^^^ (w2 >>> 10)
    shaSchedule n (add32 (add32 (add32 w16 s0) w7) s1 :: rev)

/-- Group bytes into big-endian 32-bit words. -/
def beWords : List Nat → List Nat
  | b0 :: b1 :: b2 :: b3 :: rest => (((b0 * 256 + b1) * 256 + b2) * 256 + b3) :: beWords rest
  | _ => []

/-- Process one 64-byte chunk. -/
def shaBlock (s : ShaState) (chunk : List Nat) : ShaState :=
  let w := shaSchedule 48 (beWords chunk).reverse
  let t := shaRounds s K256 w
  ⟨add32 s.a t.a, add32 s.b t.b, add32 s.c t.c, add32 s.d t.d,
   add32 s.e t.e, add32 s.f t.f, add32 s.g t.g, add32 s.h t.h⟩

/-- Process the first `n` 64-byte chunks of `bytes`. -/
def shaBlocks : Nat → ShaState → List Nat → ShaState
  | 0, s, _ => s
  | n + 1, s, bytes => shaBlocks n (shaBlock s (bytes.take 64)) (bytes.drop 64)

/-- The `n` low bytes of `x`, most significant first. -/
def beBytes : Nat → Nat → List Nat
  | 0, _ => []
  | n + 1, x => (x / 256 ^ n) % 256 :: beBytes n x

/-- Padding: a one bit, zeros up to 56 modulo 64, the bit length on 64 bits. -/
def shaPad (msg : List Nat) : List Nat :=
  let l := msg.length
  msg ++ [0x80] ++ List.replicate ((119 - l % 64) % 64) 0 ++ beBytes 8 ((8 * l) % 2 ^ 64)

/-- The digest of `msg`: `sha256.New()`, `Write(msg)`, `Sum(nil)`. -/
def sha256Sum (msg : GoString) : GoString :=
  let p := shaPad (msg.map Fin.val)
  let s := shaBlocks (p.length / 64) shaInit p
  ([s.a, s.b, s.c, s.d, s.e, s.f, s.g, s.h].flatMap (beBytes 4)).map byteOfNat

/-- The lower-case hex digit of `n < 16`. -/
def hexDigit (n : Nat) : Fin 256 :=
  if n < 10 then byteOfNat (48 + n) else byteOfNat (87 + n)

/-- The function `hex.EncodeToString`: two lower-case hex digits per byte. -/
def hexEncodeToString : GoString → GoString
  | [] => []
  | b :: rest => hexDigit (b.val / 16) :: hexDigit (b.val % 16) :: hexEncodeToString rest

/-! ## `json.Marshal` of a `bookCheckout` -/

/-- The function `utf8.DecodeRuneInString`: the first rune of `s` and its width
in bytes; `(runeError, 1)` on an invalid encoding, `(runeError, 0)` on the
empty string. -/
def decodeRuneInString (s : GoString) : Nat × Nat :=
  match s.map Fin.val with
  | [] => (runeError, 0)
  | s0 :: t =>
    if s0 < 0x80 then (s0, 1)
    else if s0 < 0xC2 ∨ 0xF4 < s0 then (runeError, 1)
    else
      let sz := if s0 < 0xE0 then 2 else if s0 < 0xF0 then 3 else 4
      let lo := if s0 = 0xE0 then 0xA0 else if s0 = 0xF0 then 0x90 else 0x80
      let hi := if s0 = 0xED then 0x9F else if s0 = 0xF4 then 0x8F else 0xBF
      if t.length + 1 < sz then (runeError, 1)
      else
        let s1 := t.getD 0 0
        let s2 := t.getD 1 0
        let s3 := t.getD 2 0
        if s1 < lo ∨ hi < s1 then (runeError, 1)
        else if sz = 2 then ((s0 % 32) * 64 + s1 % 64, 2)
        else if s2 < 0x80 ∨ 0xBF < s2 then (runeError, 1)
        else if sz = 3 then (((s0 % 16) * 64 + s1 % 64) * 64 + s2 % 64, 3)
        else if s3 < 0x80 ∨ 0xBF < s3 then (runeError, 1)
        else ((((s0 % 8) * 64 + s1 % 64) * 64 + s2 % 64) * 64 + s3 % 64, 4)

/-- How `encoding/json` of Go 1.22 to 1.26 writes one ASCII byte of a string
(HTML escaping on, as in `json.Marshal`; `\b` and `\f` as written since
Go 1.22). -/
def jsonEscapeAscii (b : Fin 256) : GoString :=
  if b.val = 0x5C ∨ b.val = 0x22 then [0x5C, b]
  else if b.val = 0x08 then [0x5C, 0x62]
  else if b.val = 0x0C then [0x5C, 0x66]
  else if b.val = 0x0A then [0x5C, 0x6E]
  else if b.val = 0x0D then [0x5C, 0x72]
  else if b.val = 0x09 then [0x5C, 0x74]
  else if b.val < 0x20 ∨ b.val = 0x3C ∨ b.val = 0x3E ∨ b.val = 0x26 then
    [0x5C, 0x75, 0x30, 0x30, hexDigit (b.val / 16), hexDigit (b.val % 16)]
  else [b]

/-- The body of a JSON string, as `encoding/json` of Go 1.22 to 1.26 writes it:
a byte that is not valid UTF-8 becomes the six bytes of the escape `\ufffd`
(a later toolchain may write the three bytes of U+FFFD itself; either way all
such bytes are written alike).  `copy` bytes are still to be copied as the
tail of a rune already accepted, then `skip` bytes are to be dropped as the
tail of a rune already escaped. -/
def jsonStringBody : Nat → Nat → GoString → GoString
  | _, _, [] => []
  | copy + 1, skip, b :: rest => b :: jsonStringBody copy skip rest
  | 0, skip + 1, _ :: rest => jsonStringBody 0 skip rest
  | 0, 0, b :: rest =>
    if b.val < 0x80 then jsonEscapeAscii b ++ jsonStringBody 0 0 rest
    else
      let r := decodeRuneInString (b :: rest)
      if r.1 = runeError ∧ r.2 = 1 then
        [0x5C, 0x75, 0x66, 0x66, 0x66, 0x64] ++ jsonStringBody 0 0 rest
      else if r.1 = 0x2028 ∨ r.1 = 0x2029 then
        [0x5C, 0x75, 0x32, 0x30, 0x32, hexDigit (r.1 % 16)] ++ jsonStringBody 0 (r.2 - 1) rest
      else b :: jsonStringBody (r.2 - 1) 0 rest

/-- The function `utf8.ValidString`: no rune of `s` decodes to an encoding
error.  `k` bytes are still to be passed as the tail of a rune already
accepted. -/
def utf8Valid : Nat → GoString → Bool
  | _, [] => true
  | k + 1, _ :: rest => utf8Valid k rest
  | 0, b :: rest =>
    if b.val < 0x80 then utf8Valid 0 rest
    else
      let r := decodeRuneInString (b :: rest)
      if r.1 = runeError ∧ r.2 = 1 then false else utf8Valid (r.2 - 1) rest

/-- What `jsonStringBody` writes for one rune of a valid string: `tok` for the
rune with first byte `b` and further bytes `pre`. -/
def IsRuneToken (b : Fin 256) (pre tok : GoString) : Prop :=
  (b.val < 0x80 ∧ pre = [] ∧ tok = jsonEscapeAscii b) ∨
  (0x80 ≤ b.val ∧ tok = b :: pre ∧
    pre.length + 1 = (if b.val < 0xE0 then 2 else if b.val < 0xF0 then 3 else 4)) ∨
  (b.val = 0xE2 ∧ ∃ v : Nat, (v = 0x2028 ∨ v = 0x2029) ∧
    pre.map Fin.val = [0x80, 0x80 + v % 64] ∧
    tok = [0x5C, 0x75, 0x32, 0x30, 0x32, hexDigit (v % 16)])

/-- A Go string as a JSON string. -/
def jsonString (s : GoString) : GoString := [0x22] ++ jsonStringBody 0 0 s ++ [0x22]

/-- A Go `bool` as JSON. -/
def jsonBool (v : Bool) : GoString := if v then ofString "true" else ofString "false"

/-! ## The data model -/

/-- The payload of a block: `type bookCheckout struct`. -/
structure bookCheckout where
  BookID : GoString
  User : GoString
  CheckoutDate : GoString
  IsGenesis : Bool
deriving DecidableEq

/-- Every string of the payload is valid UTF-8. -/
def bookCheckout.validText (d : bookCheckout) : Bool :=
  utf8Valid 0 d.BookID && utf8Valid 0 d.User && utf8Valid 0 d.CheckoutDate

/-- The type `block`. -/
structure block where
  Pos : Int
  Data : bookCheckout
  TimeStamp : GoString
  Hash : GoString
  PrevHash : GoString
deriving DecidableEq

/-- The type `blockChain`: the slice `blocks`. -/
structure blockChain where
  blocks : List block
deriving DecidableEq

/-- The call `json.Marshal(b.Data)`: the fields in declaration order under
their `json` tags.  It cannot fail on this type. -/
def jsonMarshal (d : bookCheckout) : GoString :=
  ofString "\x7b\"book_id\":" ++ jsonString d.BookID ++
  ofString ",\"user\":" ++ jsonString d.User ++
  ofString ",\"checkout_date\":" ++ jsonString d.CheckoutDate ++
  ofString ",\"is_genesis\":" ++ jsonBool d.IsGenesis ++ ofString "\x7d"

/-- The zero value `block{}`. -/
def block.zero : block :=
  { Pos := 0, Data := { BookID := [], User := [], CheckoutDate := [], IsGenesis := false },
    TimeStamp := [], Hash := [], PrevHash := [] }

/-! ## The operations -/

/-- The local `data` of `generateHash`: the text that is hashed,
`string(b.Pos) + b.TimeStamp + string(bytes) + b.PrevHash`. -/
def block.digestInput (b : block) : GoString :=
  intToString b.Pos ++ b.TimeStamp ++ jsonMarshal b.Data ++ b.PrevHash

/-- The method `generateHash`: store the hex SHA-256 digest of the digest input
in `b.Hash`.  The result is the new state of `b`. -/
def block.generateHash (b : block) : block :=
  { b with Hash := hexEncodeToString (sha256Sum b.digestInput) }

/-- The method `validateHash`: call `generateHash` on `b`, then compare the
stored hash with `hash`.  The result is the returned boolean and the new state
of `b`. -/
def block.validateHash (b : block) (hash : GoString) : Bool × block :=
  let b1 := b.generateHash
  (decide (b1.Hash = hash), b1)

/-- The function `createBlock`; `now` is the value of `time.Now().String()`. -/
def createBlock (prevBlock : block) (data : bookCheckout) (now : GoString) : block :=
  block.generateHash
    { Pos := intAdd prevBlock.Pos 1, Data := data, TimeStamp := now, Hash := [],
      PrevHash := prevBlock.Hash }

/-- The function `validBlock`.  The result is the returned boolean and the new
state of the candidate `blk`; `prevBlock` is only read (in `AddBlock` the two
are distinct objects, the candidate being newly allocated). -/
def validBlock (blk prevBlock : block) : Bool × block :=
  if blk.PrevHash ≠ prevBlock.Hash then (false, blk)
  else
    let r := blk.validateHash blk.Hash
    if !r.1 then (false, r.2)
    else if intAdd prevBlock.Pos 1 ≠ r.2.Pos then (false, r.2)
    else (true, r.2)

/-- The guarded append of `AddBlock` (its `if validBlock(block, prevBlock)`
statement), for any candidate `blk`. -/
def appendIfValid (bc : blockChain) (blk prevBlock : block) : blockChain :=
  let r := validBlock blk prevBlock
  if r.1 then { blocks := bc.blocks ++ [r.2] } else bc

/-- The method `AddBlock`; `now` is the time read by `createBlock`.  `none` is
the run-time panic of `bc.blocks[len(bc.blocks)-1]` on an empty slice. -/
def blockChain.AddBlock (bc : blockChain) (data : bookCheckout) (now : GoString) :
    Option blockChain :=
  match bc.blocks.getLast? with
  | none => none
  | some prevBlock => some (appendIfValid bc (createBlock prevBlock data now) prevBlock)

/-- The function `genesisBlock`. -/
def genesisBlock (now : GoString) : block :=
  createBlock block.zero { BookID := [], User := [], CheckoutDate := [], IsGenesis := true } now

/-- The function `NewBlockchain`. -/
def NewBlockchain (now : GoString) : blockChain := { blocks := [genesisBlock now] }

/-- A finite sequence of `AddBlock` calls, each with its payload and the time
it reads. -/
def addBlocks (bc : blockChain) : List (bookCheckout × GoString) → Option blockChain
  | [] => some bc
  | call :: rest =>
    match bc.AddBlock call.1 call.2 with
    | none => none
    | some bc1 => addBlocks bc1 rest

/-! ## The digest input as the specification words it -/

/-- The decimal digits of `n`; `fuel` bounds the number of digits. -/
def decimalDigits : Nat → Nat → GoString
  | 0, _ => []
  | fuel + 1, n =>
    if n < 10 then [byteOfNat (48 + n)]
    else decimalDigits fuel (n / 10) ++ [byteOfNat (48 + n % 10)]

/-- The position as numeric text: its decimal digits, after a minus sign when
negative (what `strconv.Itoa` writes). -/
def positionText (v : Int) : GoString :=
  if v < 0 then 0x2D :: decimalDigits (v.natAbs + 1) v.natAbs
  else decimalDigits (v.natAbs + 1) v.natAbs

/-- The digest input of the design note: the position as numeric text, the
timestamp, the serialized payload and the previous hash, in this order. -/
def specDigestInput (b : block) : GoString :=
  positionText b.Pos ++ b.TimeStamp ++ jsonMarshal b.Data ++ b.PrevHash

/-! ## The invariant of reachable chains -/

/-- What every chain built from a genesis block `g` by `AddBlock` satisfies. -/
structure ChainInv (g : block) (bc : blockChain) : Prop where
  head : bc.blocks.head? = some g
  link : ∀ (i : Nat) (a b : block), bc.blocks[i]? = some a → bc.blocks[i + 1]? = some b →
    b.PrevHash = a.Hash ∧ b.Pos = intAdd a.Pos 1
  hash : ∀ b ∈ bc.blocks, b.generateHash = b
  pos : ∀ (i : Nat) (b : block), bc.blocks[i]? = some b → b.Pos = wrapInt ((i : Int) + 1)

/-! ## Sample data -/

/-- A time of creation of a genesis block, as `time.Now().String()` prints it. -/
def sampleTime0 : GoString := ofString "2024-05-01 10:00:00.000000001 +0000 UTC m=+0.000012345"

/-- The time of a first `AddBlock` call. -/
def sampleTime1 : GoString := ofString "2024-05-01 10:00:07.250000000 +0000 UTC m=+7.250012345"

/-- A checkout record. -/
def sampleCheckout : bookCheckout :=
  { BookID := ofString "b1", User := ofString "alice", CheckoutDate := ofString "2024-05-01",
    IsGenesis := false }

/-- The chain after `NewBlockchain` and one `AddBlock`. -/
def sampleChain : blockChain :=
  { blocks := [genesisBlock sampleTime0,
      createBlock (genesisBlock sampleTime0) sampleCheckout sampleTime1] }

/-- A stored block whose `User` is the single byte `0xFF`. -/
def sampleStored : block :=
  block.generateHash
    { Pos := 2,
      Data := { BookID := ofString "b1", User := [0xFF], CheckoutDate := ofString "2024-05-01",
                IsGenesis := false },
      TimeStamp := sampleTime1, Hash := [], PrevHash := (genesisBlock sampleTime0).Hash }

/-- The block `sampleStored` after its `User` was overwritten by the byte `0xFE`. -/
def sampleTampered : block :=
  { sampleStored with
    Data := { BookID := ofString "b1", User := [0xFE], CheckoutDate := ofString "2024-05-01",
              IsGenesis := false } }

/-- The appended block of `sampleChain` after its `TimeStamp` was overwritten. -/
def sampleRedated : block :=
  { createBlock (genesisBlock sampleTime0) sampleCheckout sampleTime1 with
    TimeStamp := sampleTime0 }

/-- The appended block of `sampleChain` after the `User` of its payload was
overwritten. -/
def sampleRenamed : block :=
  { createBlock (genesisBlock sampleTime0) sampleCheckout sampleTime1 with
    Data := { BookID := ofString "b1", User := ofString "bob",
              CheckoutDate := ofString "2024-05-01", IsGenesis := false } }

/-- A candidate for the chain `NewBlockchain sampleTime0` whose `PrevHash` was
set to a wrong value. -/
def sampleMislinked : block :=
  { createBlock (genesisBlock sampleTime0) sampleCheckout sampleTime1 with
    PrevHash := ofString "0000" }

/-! ## Basic facts -/

theorem wrapInt_of_range (x : Int) (h1 : -9223372036854775808 ≤ x)
    (h2 : x < 9223372036854775808) : wrapInt x = x := by
  unfold wrapInt; omega

theorem wrapInt_wrapInt_add (x y : Int) : wrapInt (wrapInt x + y) = wrapInt (x + y) := by
  unfold wrapInt; omega

theorem intAdd_of_range (x : Int) (h1 : -9223372036854775808 ≤ x)
    (h2 : x < 9223372036854775807) : intAdd x 1 = x + 1 := by
  unfold intAdd; exact wrapInt_of_range _ (by omega) (by omega)

theorem block.digestInput_generateHash (b : block) :
    b.generateHash.digestInput = b.digestInput := rfl

theorem block.generateHash_idem (b : block) : b.generateHash.generateHash = b.generateHash := rfl

theorem block.validateHash_eq (b : block) (hash : GoString) :
    b.validateHash hash = (decide (b.generateHash.Hash = hash), b.generateHash) := rfl

theorem createBlock_generateHash (p : block) (d : bookCheckout) (t : GoString) :
    (createBlock p d t).generateHash = createBlock p d t := rfl

theorem createBlock_Pos (p : block) (d : bookCheckout) (t : GoString) :
    (createBlock p d t).Pos = intAdd p.Pos 1 := rfl

theorem createBlock_PrevHash (p : block) (d : bookCheckout) (t : GoString) :
    (createBlock p d t).PrevHash = p.Hash := rfl

theorem createBlock_Data (p : block) (d : bookCheckout) (t : GoString) :
    (createBlock p d t).Data = d := rfl

theorem createBlock_TimeStamp (p : block) (d : bookCheckout) (t : GoString) :
    (createBlock p d t).TimeStamp = t := rfl

/-- A candidate made by `createBlock` passes `validBlock` against the block it
was made from, and is not changed by it. -/
theorem validBlock_createBlock (p : block) (d : bookCheckout) (t : GoString) :
    validBlock (createBlock p d t) p = (true, createBlock p d t) := by
  simp [validBlock, block.validateHash_eq, createBlock_generateHash, createBlock_PrevHash,
    createBlock_Pos]

/-- On a chain whose last block is `p`, `AddBlock` appends `createBlock p`. -/
theorem AddBlock_of_getLast (bc : blockChain) (p : block) (d : bookCheckout) (t : GoString)
    (h : bc.blocks.getLast? = some p) :
    bc.AddBlock d t = some { blocks := bc.blocks ++ [createBlock p d t] } := by
  simp [blockChain.AddBlock, h, appendIfValid, validBlock_createBlock]

/-! ## Reachable chains keep the invariant -/

theorem ChainInv_NewBlockchain (t0 : GoString) :
    ChainInv (genesisBlock t0) (NewBlockchain t0) := by
  refine ⟨rfl, ?_, ?_, ?_⟩
  · intro i a b _ hb
    simp [NewBlockchain] at hb
  · intro b hb
    simp [NewBlockchain] at hb
    subst hb
    rfl
  · intro i b hb
    cases i with
    | zero =>
      simp [NewBlockchain] at hb
      subst hb
      rfl
    | succ n => simp [NewBlockchain] at hb

theorem ChainInv_append (g p : block) (bc : blockChain) (d : bookCheckout) (t : GoString)
    (hinv : ChainInv g bc) (hp : bc.blocks.getLast? = some p) :
    ChainInv g { blocks := bc.blocks ++ [createBlock p d t] } := by
  have hlast : bc.blocks[bc.blocks.length - 1]? = some p := by
    rw [← List.getLast?_eq_getElem?]; exact hp
  have hne : bc.blocks ≠ [] := by
    intro h; rw [h] at hp; simp at hp
  have hlen : 0 < bc.blocks.length := List.length_pos.mpr hne
  refine ⟨?_, ?_, ?_, ?_⟩
  · have := hinv.head
    cases hb : bc.blocks with
    | nil => exact absurd hb hne
    | cons x xs => rw [hb] at this; simpa using this
  · intro i a b ha hb
    simp only at ha hb
    by_cases h1 : i + 1 < bc.blocks.length
    · rw [List.getElem?_append_left (by omega)] at ha
      rw [List.getElem?_append_left h1] at hb
      exact hinv.link i a b ha hb
    · by_cases h2 : i + 1 = bc.blocks.length
      · rw [List.getElem?_append_left (by omega)] at ha
        rw [List.getElem?_append_right (by omega)] at hb
        have hi : i = bc.blocks.length - 1 := by omega
        rw [hi, hlast] at ha
        have hap : p = a := by simpa using ha
        have hbe : createBlock p d t = b := by
          have : i + 1 - bc.blocks.length = 0 := by omega
          rw [this] at hb
          simpa using hb
        subst hap hbe
        exact ⟨rfl, rfl⟩
      · have : (bc.blocks ++ [createBlock p d t])[i + 1]? = none := by
          apply List.getElem?_eq_none
          simp; omega
        rw [this] at hb
        exact absurd hb (by simp)
  · intro b hb
    simp only [List.mem_append, List.mem_singleton] at hb
    rcases hb with hb | hb
    · exact hinv.hash b hb
    · subst hb; rfl
  · intro i b hb
    simp only at hb
    by_cases h1 : i < bc.blocks.length
    · rw [List.getElem?_append_left h1] at hb
      exact hinv.pos i b hb
    · by_cases h2 : i = bc.blocks.length
      · rw [List.getElem?_append_right (by omega)] at hb
        have : i - bc.blocks.length = 0 := by omega
        rw [this] at hb
        have hbe : createBlock p d t = b := by simpa using hb
        subst hbe
        have hpp := hinv.pos (bc.blocks.length - 1) p hlast
        rw [createBlock_Pos, intAdd, hpp, wrapInt_wrapInt_add]
        congr 1
        omega
      · have : (bc.blocks ++ [createBlock p d t])[i]? = none := by
          apply List.getElem?_eq_none
          simp; omega
        rw [this] at hb
        exact absurd hb (by simp)

/-- A sequence of `AddBlock` calls on a chain with the invariant never panics,
appends one block per call and keeps the invariant. -/
theorem addBlocks_inv (g : block) (calls : List (bookCheckout × GoString)) :
    ∀ bc : blockChain, ChainInv g bc →
      ∃ bc1, addBlocks bc calls = some bc1 ∧ ChainInv g bc1 ∧
        bc1.blocks.length = bc.blocks.length + calls.length := by
  induction calls with
  | nil => intro bc h; exact ⟨bc, rfl, h, rfl⟩
  | cons call rest ih =>
    intro bc h
    have hne : bc.blocks ≠ [] := by
      intro hnil
      have := h.head
      rw [hnil] at this
      simp at this
    obtain ⟨p, hp⟩ : ∃ p, bc.blocks.getLast? = some p :=
      ⟨bc.blocks.getLast hne, List.getLast?_eq_getLast _ hne⟩
    obtain ⟨bc1, h1, h2, h3⟩ := ih _ (ChainInv_append g p bc call.1 call.2 h hp)
    refine ⟨bc1, ?_, h2, ?_⟩
    · simp only [addBlocks, AddBlock_of_getLast bc p call.1 call.2 hp]
      exact h1
    · rw [h3]; simp; omega

/-- Every chain reachable from `NewBlockchain` has the invariant. -/
theorem addBlocks_NewBlockchain (t0 : GoString) (calls : List (bookCheckout × GoString)) :
    ∃ bc, addBlocks (NewBlockchain t0) calls = some bc ∧ ChainInv (genesisBlock t0) bc ∧
      bc.blocks.length = calls.length + 1 := by
  obtain ⟨bc, h1, h2, h3⟩ := addBlocks_inv (genesisBlock t0) calls _ (ChainInv_NewBlockchain t0)
  exact ⟨bc, h1, h2, by rw [h3]; simp [NewBlockchain]; omega⟩

/-- What `validBlock` does to the candidate: only `Hash` may change. -/
theorem validBlock_snd (blk p : block) :
    (validBlock blk p).2.Pos = blk.Pos ∧ (validBlock blk p).2.Data = blk.Data ∧
      (validBlock blk p).2.TimeStamp = blk.TimeStamp ∧
      (validBlock blk p).2.PrevHash = blk.PrevHash := by
  unfold validBlock
  dsimp only
  split_ifs <;> exact ⟨rfl, rfl, rfl, rfl⟩

/-- What a successful `validBlock` has checked. -/
theorem validBlock_true (blk p : block) (h : (validBlock blk p).1 = true) :
    blk.PrevHash = p.Hash ∧ blk.generateHash.Hash = blk.Hash ∧ intAdd p.Pos 1 = blk.Pos := by
  unfold validBlock at h
  dsimp only at h
  split_ifs at h with h1 h2 h3
  have h4 : blk.generateHash.Hash = blk.Hash := by simpa [block.validateHash_eq] using h2
  exact ⟨not_not.mp h1, h4, by simpa [block.validateHash_eq] using h3⟩

/-- The sample chain is what one `AddBlock` call makes of a new chain. -/
theorem addBlocks_sample :
    addBlocks (NewBlockchain sampleTime0) [(sampleCheckout, sampleTime1)] = some sampleChain := by
  have h := AddBlock_of_getLast (NewBlockchain sampleTime0) (genesisBlock sampleTime0)
    sampleCheckout sampleTime1 rfl
  simp only [addBlocks, h]
  rfl

/-- Distinct hex digits are distinct bytes. -/
theorem hexDigit_inj (m n : Nat) (hm : m < 16) (hn : n < 16) (h : hexDigit m = hexDigit n) :
    m = n := by
  unfold hexDigit byteOfNat at h
  split_ifs at h <;> simp only [Fin.mk.injEq] at h <;> omega

/-- The function `hexEncodeToString` is injective. -/
theorem hexEncodeToString_inj :
    ∀ a b : GoString, hexEncodeToString a = hexEncodeToString b → a = b := by
  intro a
  induction a with
  | nil =>
    intro b h
    cases b with
    | nil => rfl
    | cons y ys => simp [hexEncodeToString] at h
  | cons x xs ih =>
    intro b h
    cases b with
    | nil => simp [hexEncodeToString] at h
    | cons y ys =>
      simp only [hexEncodeToString, List.cons.injEq] at h
      obtain ⟨h1, h2, h3⟩ := h
      have e1 := hexDigit_inj _ _ (by omega) (by omega) h1
      have e2 := hexDigit_inj _ _ (by omega) (by omega) h2
      have : x = y := by
        apply Fin.ext
        omega
      rw [this, ih ys h3]

/-- What `string(v)` is when `v` is not a valid code point. -/
theorem intToString_invalid (v : Int)
    (hv : v < 0 ∨ (0xD800 ≤ v ∧ v ≤ 0xDFFF) ∨ 0x10FFFF < v) :
    intToString v = encodeRune runeError := by
  unfold intToString
  rw [if_neg]
  omega

/-- The function `validBlock` as the conjunction of its three checks. -/
theorem validBlock_fst (blk p : block) :
    (validBlock blk p).1 = true ↔
      blk.PrevHash = p.Hash ∧ blk.generateHash.Hash = blk.Hash ∧ intAdd p.Pos 1 = blk.Pos := by
  constructor
  · exact validBlock_true blk p
  · rintro ⟨h1, h2, h3⟩
    simp only [validBlock, block.validateHash_eq, h1, h2, h3, ne_eq, not_true_eq_false,
      if_false, decide_True, Bool.not_true, Bool.false_eq_true]
    rw [if_neg (show ¬¬blk.Pos = blk.generateHash.Pos from not_not.mpr rfl)]

/-- A candidate that fails only the hash check passes `validBlock` when the
call is repeated on the state the first call left. -/
theorem validBlock_repeat (blk p : block) (h1 : blk.PrevHash = p.Hash)
    (h2 : intAdd p.Pos 1 = blk.Pos) (h3 : blk.generateHash.Hash ≠ blk.Hash) :
    validBlock blk p = (false, blk.generateHash) ∧
      validBlock (validBlock blk p).2 p = (true, blk.generateHash) := by
  have e1 : validBlock blk p = (false, blk.generateHash) := by
    simp [validBlock, block.validateHash_eq, h1, h3]
  refine ⟨e1, ?_⟩
  rw [e1]
  have h4 : blk.generateHash.PrevHash = p.Hash := h1
  have h5 : intAdd p.Pos 1 = blk.generateHash.Pos := h2
  simp [validBlock, block.validateHash_eq, block.generateHash_idem, h4, h5]

/-! ## The digest input determines the fields -/

/-- What `jsonEscapeAscii` writes starts with an ASCII byte other than the quote. -/
theorem jsonEscapeAscii_head (b : Fin 256) (hb : b.val < 0x80) :
    ∃ x T, jsonEscapeAscii b = x :: T ∧ x.val < 0x80 ∧ x.val ≠ 0x22 := by
  unfold jsonEscapeAscii
  split_ifs with h1 h2 h3 h4 h5 h6 h7
  all_goals first
    | exact ⟨0x5C, _, rfl, by decide, by decide⟩
    | exact ⟨b, _, rfl, hb, fun h => h1 (Or.inr h)⟩

/-- The three shapes of what `jsonEscapeAscii` writes. -/
theorem jsonEscapeAscii_shape (b : Fin 256) :
    (∃ y : Fin 256, jsonEscapeAscii b = [0x5C, y] ∧
        ((b.val = 0x5C ∧ y.val = 0x5C) ∨ (b.val = 0x22 ∧ y.val = 0x22) ∨
          (b.val = 0x08 ∧ y.val = 0x62) ∨ (b.val = 0x0C ∧ y.val = 0x66) ∨
          (b.val = 0x0A ∧ y.val = 0x6E) ∨ (b.val = 0x0D ∧ y.val = 0x72) ∨
          (b.val = 0x09 ∧ y.val = 0x74))) ∨
      jsonEscapeAscii b =
        [0x5C, 0x75, 0x30, 0x30, hexDigit (b.val / 16), hexDigit (b.val % 16)] ∨
      (jsonEscapeAscii b = [b] ∧ b.val ≠ 0x5C ∧ b.val ≠ 0x22) := by
  unfold jsonEscapeAscii
  split_ifs with h1 h2 h3 h4 h5 h6 h7
  · exact Or.inl ⟨b, rfl, by omega⟩
  · exact Or.inl ⟨0x62, rfl, Or.inr (Or.inr (Or.inl ⟨h2, rfl⟩))⟩
  · exact Or.inl ⟨0x66, rfl, Or.inr (Or.inr (Or.inr (Or.inl ⟨h3, rfl⟩)))⟩
  · exact Or.inl ⟨0x6E, rfl, Or.inr (Or.inr (Or.inr (Or.inr (Or.inl ⟨h4, rfl⟩))))⟩
  · exact Or.inl ⟨0x72, rfl, Or.inr (Or.inr (Or.inr (Or.inr (Or.inr (Or.inl ⟨h5, rfl⟩)))))⟩
  · exact Or.inl ⟨0x74, rfl, Or.inr (Or.inr (Or.inr (Or.inr (Or.inr (Or.inr ⟨h6, rfl⟩)))))⟩
  · exact Or.inr (Or.inl rfl)
  · exact Or.inr (Or.inr ⟨rfl, fun h => h1 (Or.inl h), fun h => h1 (Or.inr h)⟩)

/-- What `jsonEscapeAscii` writes determines the byte, whatever follows. -/
theorem jsonEscapeAscii_inj (b c : Fin 256) (X Y : GoString)
    (h : jsonEscapeAscii b ++ X = jsonEscapeAscii c ++ Y) : b = c ∧ X = Y := by
  have hbc : b = c := by
    apply Fin.ext
    have hb := b.isLt
    have hc := c.isLt
    rcases jsonEscapeAscii_shape b with ⟨y, e1, r1⟩ | e1 | ⟨e1, r1, r1'⟩ <;>
      rcases jsonEscapeAscii_shape c with ⟨z, e2, r2⟩ | e2 | ⟨e2, r2, r2'⟩ <;>
      rw [e1, e2] at h <;>
      simp only [List.cons_append, List.nil_append, List.cons.injEq] at h
    · have := congrArg Fin.val h.2.1
      omega
    · have := congrArg Fin.val h.2.1
      simp at this
      omega
    · have := congrArg Fin.val h.1
      simp at this
      omega
    · have := congrArg Fin.val h.2.1
      simp at this
      omega
    · have e3 := hexDigit_inj (b.val / 16) (c.val / 16) (by omega) (by omega) h.2.2.2.2.1
      have e4 := hexDigit_inj (b.val % 16) (c.val % 16) (by omega) (by omega) h.2.2.2.2.2.1
      omega
    · have := congrArg Fin.val h.1
      simp at this
      omega
    · have := congrArg Fin.val h.1
      simp at this
      omega
    · have := congrArg Fin.val h.1
      simp at this
      omega
    · exact congrArg Fin.val h.1
  subst hbc
  exact ⟨rfl, List.append_cancel_left h⟩

/-- No ASCII byte is written as the escape of a line or paragraph separator. -/
theorem jsonEscapeAscii_ne_sep (b x : Fin 256) (X Y : GoString)
    (h : jsonEscapeAscii b ++ X = [0x5C, 0x75, 0x32, 0x30, 0x32, x] ++ Y) : False := by
  rcases jsonEscapeAscii_shape b with ⟨y, e1, r1⟩ | e1 | ⟨e1, r1, r1'⟩ <;>
    rw [e1] at h <;>
    simp only [List.cons_append, List.nil_append, List.cons.injEq] at h
  · have := congrArg Fin.val h.2.1
    simp at this
    omega
  · exact absurd (congrArg Fin.val h.2.2.1) (by decide)
  · have := congrArg Fin.val h.1
    simp at this
    omega

set_option maxHeartbeats 4000000 in
/-- A rune that decodes without error: its width is fixed by its first byte,
its bytes are all there, and a line or paragraph separator has the bytes
`E2 80 A8` or `E2 80 A9`. -/
theorem decode_valid (b : Fin 256) (rest : GoString) (hb : 0x80 ≤ b.val)
    (hv : ¬ ((decodeRuneInString (b :: rest)).1 = runeError ∧
      (decodeRuneInString (b :: rest)).2 = 1)) :
    (decodeRuneInString (b :: rest)).2 =
        (if b.val < 0xE0 then 2 else if b.val < 0xF0 then 3 else 4) ∧
      (decodeRuneInString (b :: rest)).2 ≤ rest.length + 1 ∧
      (((decodeRuneInString (b :: rest)).1 = 0x2028 ∨
          (decodeRuneInString (b :: rest)).1 = 0x2029) →
        b.val = 0xE2 ∧ (rest.map Fin.val).getD 0 0 = 0x80 ∧
          (rest.map Fin.val).getD 1 0 = 0x80 + (decodeRuneInString (b :: rest)).1 % 64) := by
  have hb2 := b.isLt
  unfold decodeRuneInString at hv ⊢
  simp only [List.map_cons, List.length_map] at hv ⊢
  generalize (rest.map Fin.val).getD 0 0 = s1 at hv ⊢
  generalize (rest.map Fin.val).getD 1 0 = s2 at hv ⊢
  generalize (rest.map Fin.val).getD 2 0 = s3 at hv ⊢
  generalize rest.length = n at hv ⊢
  generalize b.val = s0 at hv hb hb2 ⊢
  unfold runeError at hv ⊢
  rcases (show (s0 < 0xC2) ∨ (0xC2 ≤ s0 ∧ s0 < 0xE0) ∨ (s0 = 0xE0) ∨ (0xE1 ≤ s0 ∧ s0 < 0xF0 ∧ s0 ≠ 0xED) ∨ (s0 = 0xED) ∨ (s0 = 0xF0) ∨ (0xF1 ≤ s0 ∧ s0 ≤ 0xF3) ∨ (s0 = 0xF4) ∨ (0xF4 < s0) by omega) with hc | hc | hc | hc | hc | hc | hc | hc | hc
  · have a0 : (s0 < 128) = False := eq_false (by omega)
    have a1 : (s0 < 194 ∨ 244 < s0) = True := eq_true (by omega)
    have a2 : (s0 < 224) = True := eq_true (by omega)
    have a3 : (s0 < 240) = True := eq_true (by omega)
    have a4 : (s0 = 224) = False := eq_false (by omega)
    have a5 : (s0 = 240) = False := eq_false (by omega)
    have a6 : (s0 = 237) = False := eq_false (by omega)
    have a7 : (s0 = 244) = False := eq_false (by omega)
    simp only [a0, a1, a2, a3, a4, a5, a6, a7, if_true, if_false] at hv ⊢
    exact absurd ⟨trivial, trivial⟩ hv
  · have a0 : (s0 < 128) = False := eq_false (by omega)
    have a1 : (s0 < 194 ∨ 244 < s0) = False := eq_false (by omega)
    have a2 : (s0 < 224) = True := eq_true (by omega)
    have a3 : (s0 < 240) = True := eq_true (by omega)
    have a4 : (s0 = 224) = False := eq_false (by omega)
    have a5 : (s0 = 240) = False := eq_false (by omega)
    have a6 : (s0 = 237) = False := eq_false (by omega)
    have a7 : (s0 = 244) = False := eq_false (by omega)
    simp only [a0, a1, a2, a3, a4, a5, a6, a7, if_true, if_false] at hv ⊢
    split_ifs at hv ⊢ <;> omega
  · have a0 : (s0 < 128) = False := eq_false (by omega)
    have a1 : (s0 < 194 ∨ 244 < s0) = False := eq_false (by omega)
    have a2 : (s0 < 224) = False := eq_false (by omega)
    have a3 : (s0 < 240) = True := eq_true (by omega)
    have a4 : (s0 = 224) = True := eq_true (by omega)
    have a5 : (s0 = 240) = False := eq_false (by omega)
    have a6 : (s0 = 237) = False := eq_false (by omega)
    have a7 : (s0 = 244) = False := eq_false (by omega)
    simp only [a0, a1, a2, a3, a4, a5, a6, a7, if_true, if_false] at hv ⊢
    split_ifs at hv ⊢ <;> omega
  · have a0 : (s0 < 128) = False := eq_false (by omega)
    have a1 : (s0 < 194 ∨ 244 < s0) = False := eq_false (by omega)
    have a2 : (s0 < 224) = False := eq_false (by omega)
    have a3 : (s0 < 240) = True := eq_true (by omega)
    have a4 : (s0 = 224) = False := eq_false (by omega)
    have a5 : (s0 = 240) = False := eq_false (by omega)
    have a6 : (s0 = 237) = False := eq_false (by omega)
    have a7 : (s0 = 244) = False := eq_false (by omega)
    simp only [a0, a1, a2, a3, a4, a5, a6, a7, if_true, if_false] at hv ⊢
    split_ifs at hv ⊢ <;> omega
  · have a0 : (s0 < 128) = False := eq_false (by omega)
    have a1 : (s0 < 194 ∨ 244 < s0) = False := eq_false (by omega)
    have a2 : (s0 < 224) = False := eq_false (by omega)
    have a3 : (s0 < 240) = True := eq_true (by omega)
    have a4 : (s0 = 224) = False := eq_false (by omega)
    have a5 : (s0 = 240) = False := eq_false (by omega)
    have a6 : (s0 = 237) = True := eq_true (by omega)
    have a7 : (s0 = 244) = False := eq_false (by omega)
    simp only [a0, a1, a2, a3, a4, a5, a6, a7, if_true, if_false] at hv ⊢
    split_ifs at hv ⊢ <;> omega
  · have a0 : (s0 < 128) = False := eq_false (by omega)
    have a1 : (s0 < 194 ∨ 244 < s0) = False := eq_false (by omega)
    have a2 : (s0 < 224) = False := eq_false (by omega)
    have a3 : (s0 < 240) = False := eq_false (by omega)
    have a4 : (s0 = 224) = False := eq_false (by omega)
    have a5 : (s0 = 240) = True := eq_true (by omega)
    have a6 : (s0 = 237) = False := eq_false (by omega)
    have a7 : (s0 = 244) = False := eq_false (by omega)
    simp only [a0, a1, a2, a3, a4, a5, a6, a7, if_true, if_false] at hv ⊢
    split_ifs at hv ⊢ <;> omega
  · have a0 : (s0 < 128) = False := eq_false (by omega)
    have a1 : (s0 < 194 ∨ 244 < s0) = False := eq_false (by omega)
    have a2 : (s0 < 224) = False := eq_false (by omega)
    have a3 : (s0 < 240) = False := eq_false (by omega)
    have a4 : (s0 = 224) = False := eq_false (by omega)
    have a5 : (s0 = 240) = False := eq_false (by omega)
    have a6 : (s0 = 237) = False := eq_false (by omega)
    have a7 : (s0 = 244) = False := eq_false (by omega)
    simp only [a0, a1, a2, a3, a4, a5, a6, a7, if_true, if_false] at hv ⊢
    split_ifs at hv ⊢ <;> omega
  · have a0 : (s0 < 128) = False := eq_false (by omega)
    have a1 : (s0 < 194 ∨ 244 < s0) = False := eq_false (by omega)
    have a2 : (s0 < 224) = False := eq_false (by omega)
    have a3 : (s0 < 240) = False := eq_false (by omega)
    have a4 : (s0 = 224) = False := eq_false (by omega)
    have a5 : (s0 = 240) = False := eq_false (by omega)
    have a6 : (s0 = 237) = False := eq_false (by omega)
    have a7 : (s0 = 244) = True := eq_true (by omega)
    simp only [a0, a1, a2, a3, a4, a5, a6, a7, if_true, if_false] at hv ⊢
    split_ifs at hv ⊢ <;> omega
  · have a0 : (s0 < 128) = False := eq_false (by omega)
    have a1 : (s0 < 194 ∨ 244 < s0) = True := eq_true (by omega)
    have a2 : (s0 < 224) = False := eq_false (by omega)
    have a3 : (s0 < 240) = False := eq_false (by omega)
    have a4 : (s0 = 224) = False := eq_false (by omega)
    have a5 : (s0 = 240) = False := eq_false (by omega)
    have a6 : (s0 = 237) = False := eq_false (by omega)
    have a7 : (s0 = 244) = False := eq_false (by omega)
    simp only [a0, a1, a2, a3, a4, a5, a6, a7, if_true, if_false] at hv ⊢
    exact absurd ⟨trivial, trivial⟩ hv

/-- Bytes to be copied are copied. -/
theorem jsonStringBody_copy : ∀ (c : Nat) (rest : GoString),
    jsonStringBody c 0 rest = rest.take c ++ jsonStringBody 0 0 (rest.drop c) := by
  intro c
  induction c with
  | zero => intro rest; simp
  | succ c ih =>
    intro rest
    cases rest with
    | nil => simp [jsonStringBody]
    | cons b r => simp [jsonStringBody, ih r]

/-- Bytes to be dropped are dropped. -/
theorem jsonStringBody_skip : ∀ (k : Nat) (rest : GoString),
    jsonStringBody 0 k rest = jsonStringBody 0 0 (rest.drop k) := by
  intro k
  induction k with
  | zero => intro rest; simp
  | succ k ih =>
    intro rest
    cases rest with
    | nil => simp [jsonStringBody]
    | cons b r => simp [jsonStringBody, ih r]

/-- The tail of an accepted rune is passed over. -/
theorem utf8Valid_pending : ∀ (k : Nat) (rest : GoString),
    utf8Valid k rest = utf8Valid 0 (rest.drop k) := by
  intro k
  induction k with
  | zero => intro rest; simp
  | succ k ih =>
    intro rest
    cases rest with
    | nil => simp [utf8Valid]
    | cons b r => simp [utf8Valid, ih r]

/-- The first rune of a valid string is written as one token, and the rest of
the string is written after it. -/
theorem jsonStringBody_step (b : Fin 256) (rest : GoString)
    (hv : utf8Valid 0 (b :: rest) = true) :
    ∃ (tok : GoString) (k : Nat), k ≤ rest.length ∧
      jsonStringBody 0 0 (b :: rest) = tok ++ jsonStringBody 0 0 (rest.drop k) ∧
      utf8Valid 0 (rest.drop k) = true ∧ IsRuneToken b (rest.take k) tok := by
  by_cases hb : b.val < 0x80
  · refine ⟨jsonEscapeAscii b, 0, Nat.zero_le _, ?_, ?_, Or.inl ⟨hb, rfl, rfl⟩⟩
    · simp [jsonStringBody, hb]
    · simpa [utf8Valid, hb] using hv
  · have hb1 : 0x80 ≤ b.val := by omega
    simp only [utf8Valid, hb, if_false] at hv
    have hne : ¬ ((decodeRuneInString (b :: rest)).1 = runeError ∧
        (decodeRuneInString (b :: rest)).2 = 1) := by
      intro hbad
      rw [if_pos hbad] at hv
      exact absurd hv (by simp)
    rw [if_neg hne, utf8Valid_pending] at hv
    obtain ⟨hsz, hle, hsep⟩ := decode_valid b rest hb1 hne
    have hk : (decodeRuneInString (b :: rest)).2 - 1 ≤ rest.length := by omega
    by_cases hls : (decodeRuneInString (b :: rest)).1 = 0x2028 ∨
        (decodeRuneInString (b :: rest)).1 = 0x2029
    · obtain ⟨h0, h1, h2⟩ := hsep hls
      refine ⟨[0x5C, 0x75, 0x32, 0x30, 0x32,
        hexDigit ((decodeRuneInString (b :: rest)).1 % 16)],
        (decodeRuneInString (b :: rest)).2 - 1, hk, ?_, hv, ?_⟩
      · simp only [jsonStringBody, hb, if_false, if_neg hne, if_pos hls]
        rw [jsonStringBody_skip]
      · refine Or.inr (Or.inr ⟨h0, _, hls, ?_, rfl⟩)
        have h3 : (decodeRuneInString (b :: rest)).2 = 3 := by
          rw [hsz]; simp [h0]
        rw [h3] at hle ⊢
        rcases rest with _ | ⟨y, _ | ⟨z, rest2⟩⟩
        · simp at hle
        · simp at hle
        · simpa using ⟨h1, h2⟩
    · refine ⟨b :: rest.take ((decodeRuneInString (b :: rest)).2 - 1),
        (decodeRuneInString (b :: rest)).2 - 1, hk, ?_, hv, ?_⟩
      · simp only [jsonStringBody, hb, if_false, if_neg hne, if_neg hls]
        rw [jsonStringBody_copy]
        simp
      · refine Or.inr (Or.inl ⟨hb1, rfl, ?_⟩)
        rw [List.length_take, Nat.min_eq_left hk, ← hsz]
        have : 2 ≤ (decodeRuneInString (b :: rest)).2 := by
          rw [hsz]; split_ifs <;> omega
        omega

/-- No token starts with the closing quote. -/
theorem IsRuneToken_ne_quote (b : Fin 256) (pre tok X R : GoString)
    (ht : IsRuneToken b pre tok) : tok ++ X ≠ 0x22 :: R := by
  intro h
  rcases ht with ⟨hb, _, e⟩ | ⟨hb, e, _⟩ | ⟨_, v, _, _, e⟩
  · obtain ⟨x, T, e1, _, hx⟩ := jsonEscapeAscii_head b hb
    rw [e, e1] at h
    simp only [List.cons_append, List.cons.injEq] at h
    exact hx (congrArg Fin.val h.1)
  · rw [e] at h
    simp only [List.cons_append, List.cons.injEq] at h
    have := congrArg Fin.val h.1
    simp at this
    omega
  · rw [e] at h
    simp only [List.cons_append, List.cons.injEq] at h
    exact absurd (congrArg Fin.val h.1) (by decide)

/-- A token determines its rune, whatever follows. -/
theorem IsRuneToken_inj (b c : Fin 256) (pre pre1 tok tok1 X Y : GoString)
    (hb : IsRuneToken b pre tok) (hc : IsRuneToken c pre1 tok1)
    (h : tok ++ X = tok1 ++ Y) : b = c ∧ pre = pre1 ∧ X = Y := by
  rcases hb with ⟨hb, p1, e1⟩ | ⟨hb, e1, l1⟩ | ⟨hb, v, hv, p1, e1⟩ <;>
    rcases hc with ⟨hc, p2, e2⟩ | ⟨hc, e2, l2⟩ | ⟨hc, w, hw, p2, e2⟩ <;>
    rw [e1, e2] at h
  · obtain ⟨e, hXY⟩ := jsonEscapeAscii_inj b c X Y h
    exact ⟨e, by rw [p1, p2], hXY⟩
  · exfalso
    obtain ⟨x, T, e3, hx, _⟩ := jsonEscapeAscii_head b hb
    rw [e3] at h
    simp only [List.cons_append, List.cons.injEq] at h
    have := congrArg Fin.val h.1
    omega
  · exact absurd h (fun h => jsonEscapeAscii_ne_sep b _ X Y h)
  · exfalso
    obtain ⟨x, T, e3, hx, _⟩ := jsonEscapeAscii_head c hc
    rw [e3] at h
    simp only [List.cons_append, List.cons.injEq] at h
    have := congrArg Fin.val h.1
    omega
  · simp only [List.cons_append, List.cons.injEq] at h
    obtain ⟨hbc, h2⟩ := h
    subst hbc
    have hl : pre.length = pre1.length := by omega
    obtain ⟨e3, e4⟩ := List.append_inj h2 hl
    exact ⟨rfl, e3, e4⟩
  · exfalso
    simp only [List.cons_append, List.cons.injEq] at h
    have := congrArg Fin.val h.1
    simp at this
    omega
  · exact absurd h.symm (fun h => jsonEscapeAscii_ne_sep c _ Y X h)
  · exfalso
    simp only [List.cons_append, List.cons.injEq] at h
    have := congrArg Fin.val h.1
    simp at this
    omega
  · simp only [List.cons_append, List.nil_append, List.cons.injEq, true_and] at h
    obtain ⟨h1, h2⟩ := h
    have hvw : v % 16 = w % 16 :=
      hexDigit_inj _ _ (Nat.mod_lt _ (by decide)) (Nat.mod_lt _ (by decide)) h1
    have e : v = w := by omega
    subst e
    refine ⟨Fin.ext (by omega), ?_, h2⟩
    exact List.map_injective_iff.mpr Fin.val_injective (by rw [p1, p2])

/-- The body of a JSON string, up to its closing quote, determines a valid
string and what follows the quote. -/
theorem jsonStringBody_inj : ∀ (n : Nat) (s t R T : GoString), s.length ≤ n →
    utf8Valid 0 s = true → utf8Valid 0 t = true →
    jsonStringBody 0 0 s ++ 0x22 :: R = jsonStringBody 0 0 t ++ 0x22 :: T →
    s = t ∧ R = T := by
  intro n
  induction n with
  | zero =>
    intro s t R T hlen hs ht h
    have hs0 : s = [] := List.length_eq_zero.mp (by omega)
    subst hs0
    cases t with
    | nil => simpa [jsonStringBody] using h
    | cons c rest1 =>
      exfalso
      obtain ⟨tok, k, _, e, _, htok⟩ := jsonStringBody_step c rest1 ht
      rw [e] at h
      simp only [jsonStringBody, List.nil_append, List.append_assoc] at h
      exact IsRuneToken_ne_quote c _ tok _ R htok h.symm
  | succ n ih =>
    intro s t R T hlen hs ht h
    cases s with
    | nil =>
      cases t with
      | nil => simpa [jsonStringBody] using h
      | cons c rest1 =>
        exfalso
        obtain ⟨tok, k, _, e, _, htok⟩ := jsonStringBody_step c rest1 ht
        rw [e] at h
        simp only [jsonStringBody, List.nil_append, List.append_assoc] at h
        exact IsRuneToken_ne_quote c _ tok _ R htok h.symm
    | cons b rest =>
      obtain ⟨tok, k, hk, e, hv, htok⟩ := jsonStringBody_step b rest hs
      cases t with
      | nil =>
        exfalso
        rw [e] at h
        simp only [jsonStringBody, List.nil_append, List.append_assoc] at h
        exact IsRuneToken_ne_quote b _ tok _ T htok h
      | cons c rest1 =>
        obtain ⟨tok1, k1, hk1, e1, hv1, htok1⟩ := jsonStringBody_step c rest1 ht
        rw [e, e1] at h
        simp only [List.append_assoc] at h
        obtain ⟨hbc, hpre, hXY⟩ := IsRuneToken_inj b c _ _ tok tok1 _ _ htok htok1 h
        have hlen2 : (rest.drop k).length ≤ n := by
          simp only [List.length_drop, List.length_cons] at hlen ⊢
          omega
        obtain ⟨hd, hRT⟩ := ih _ _ R T hlen2 hv hv1 hXY
        refine ⟨?_, hRT⟩
        rw [hbc, ← List.take_append_drop k rest, ← List.take_append_drop k1 rest1, hpre, hd]

/-- A JSON string determines a valid string and what follows it. -/
theorem jsonString_inj (s t R T : GoString) (hs : utf8Valid 0 s = true)
    (ht : utf8Valid 0 t = true) (h : jsonString s ++ R = jsonString t ++ T) :
    s = t ∧ R = T := by
  unfold jsonString at h
  simp only [List.append_assoc, List.singleton_append, List.cons_append, List.cons.injEq,
    true_and] at h
  exact jsonStringBody_inj s.length s t R T (Nat.le_refl _) hs ht h

/-- The JSON of a `bool` determines it. -/
theorem jsonBool_inj (v w : Bool) (h : jsonBool v = jsonBool w) : v = w := by
  cases v <;> cases w <;> first | rfl | exact absurd h (by decide)

/-- On payloads of valid UTF-8 strings `json.Marshal` is injective. -/
theorem jsonMarshal_inj (d e : bookCheckout) (hd : d.validText = true)
    (he : e.validText = true) (h : jsonMarshal d = jsonMarshal e) : d = e := by
  simp only [bookCheckout.validText, Bool.and_eq_true] at hd he
  unfold jsonMarshal at h
  simp only [List.append_assoc] at h
  have h1 := List.append_cancel_left h
  obtain ⟨e1, h2⟩ := jsonString_inj _ _ _ _ hd.1.1 he.1.1 h1
  have h3 := List.append_cancel_left h2
  obtain ⟨e2, h4⟩ := jsonString_inj _ _ _ _ hd.1.2 he.1.2 h3
  have h5 := List.append_cancel_left h4
  obtain ⟨e3, h6⟩ := jsonString_inj _ _ _ _ hd.2 he.2 h5
  have h7 := List.append_cancel_left h6
  have e4 := jsonBool_inj _ _ (List.append_cancel_right h7)
  cases d
  cases e
  simp only [bookCheckout.mk.injEq]
  exact ⟨e1, e2, e3, e4⟩

/-- The UTF-8 encoding of a code point determines it. -/
theorem encodeRune_inj (c d : Nat) (hc : c ≤ 0x10FFFF) (hd : d ≤ 0x10FFFF)
    (e : encodeRune c = encodeRune d) : c = d := by
  unfold encodeRune byteOfNat at e
  split_ifs at e <;>
    simp only [List.cons.injEq, Fin.mk.injEq, and_true, List.cons_ne_nil, and_false,
      false_and, List.nil_eq, List.cons_ne_self, reduceCtorEq] at e <;>
    omega

/-- On valid code points the conversion `string(int)` is injective. -/
theorem intToString_inj (p q : Int)
    (hp : 0 ≤ p ∧ p ≤ 0x10FFFF ∧ ¬ (0xD800 ≤ p ∧ p ≤ 0xDFFF))
    (hq : 0 ≤ q ∧ q ≤ 0x10FFFF ∧ ¬ (0xD800 ≤ q ∧ q ≤ 0xDFFF))
    (e : intToString p = intToString q) : p = q := by
  unfold intToString at e
  rw [if_pos hp, if_pos hq] at e
  have := encodeRune_inj _ _ (by omega) (by omega) e
  omega

/-! ## The claims -/

/-- C1 (linkage invariant).  Every sequence of `AddBlock` calls on
`NewBlockchain()` runs without panic, and in the resulting chain, for every
index `i > 0`, `blocks[i].PrevHash == blocks[i-1].Hash` and
`blocks[i].Pos == blocks[i-1].Pos + 1`, with the `+` of Go on `int`; it is the
`+` of the integers too, since the length of a slice is less than `2^63`. -/
theorem linkage_invariant (t0 : GoString) (calls : List (bookCheckout × GoString)) :
    ∃ bc, addBlocks (NewBlockchain t0) calls = some bc ∧
      bc.blocks.length = calls.length + 1 ∧
      ∀ (i : Nat) (h0 : 0 < i) (h : i < bc.blocks.length),
        bc.blocks[i].PrevHash = bc.blocks[i - 1].Hash ∧
        bc.blocks[i].Pos = intAdd bc.blocks[i - 1].Pos 1 ∧
        (bc.blocks.length < 9223372036854775808 →
          bc.blocks[i].Pos = bc.blocks[i - 1].Pos + 1) := by
  obtain ⟨bc, hbc, hinv, hlen⟩ := addBlocks_NewBlockchain t0 calls
  refine ⟨bc, hbc, hlen, ?_⟩
  intro i h0 h
  have ha : bc.blocks[i - 1]? = some bc.blocks[i - 1] := List.getElem?_eq_getElem _
  have hb : bc.blocks[i - 1 + 1]? = some bc.blocks[i] := by
    have : i - 1 + 1 = i := by omega
    rw [this]; exact List.getElem?_eq_getElem _
  obtain ⟨hl1, hl2⟩ := hinv.link (i - 1) _ _ ha hb
  refine ⟨hl1, hl2, ?_⟩
  intro hbound
  have hpa := hinv.pos (i - 1) _ ha
  have hpb := hinv.pos i _ (List.getElem?_eq_getElem h)
  rw [wrapInt_of_range _ (by omega) (by omega)] at hpa hpb
  rw [hpa, hpb]
  omega

/-- Witness of C1: the chain after one `AddBlock` call, at index 1. -/
theorem linkage_invariant_witness :
    (sampleChain.blocks.getD 1 block.zero).PrevHash = (sampleChain.blocks.getD 0 block.zero).Hash ∧
      (sampleChain.blocks.getD 1 block.zero).Pos =
        (sampleChain.blocks.getD 0 block.zero).Pos + 1 := by
  obtain ⟨bc, hbc, hlen, h⟩ := linkage_invariant sampleTime0 [(sampleCheckout, sampleTime1)]
  have hs : bc = sampleChain := by
    rw [addBlocks_sample] at hbc
    exact (Option.some.inj hbc).symm
  subst hs
  have h1 := h 1 (by decide) (by decide)
  exact ⟨h1.1, h1.2.2 (by decide)⟩

/-- C2 (hash self-consistency).  In every chain built from `NewBlockchain()` by
`AddBlock` calls, the stored `Hash` of every block is the digest that
`generateHash` computes from the block's own `Pos`, `TimeStamp`, `Data` and
`PrevHash`, and `validateHash(b, b.Hash)` returns true (and leaves `b` as it
is). -/
theorem hash_self_consistency (t0 : GoString) (calls : List (bookCheckout × GoString)) :
    ∃ bc, addBlocks (NewBlockchain t0) calls = some bc ∧
      ∀ b : block, b ∈ bc.blocks →
        b.Hash = hexEncodeToString (sha256Sum
          (intToString b.Pos ++ b.TimeStamp ++ jsonMarshal b.Data ++ b.PrevHash)) ∧
        b.generateHash.Hash = b.Hash ∧
        b.validateHash b.Hash = (true, b) := by
  obtain ⟨bc, hbc, hinv, _⟩ := addBlocks_NewBlockchain t0 calls
  refine ⟨bc, hbc, ?_⟩
  intro b hb
  have hg := hinv.hash b hb
  refine ⟨?_, by rw [hg], ?_⟩
  · conv_lhs => rw [← hg]
    rfl
  · rw [block.validateHash_eq, hg]
    simp

/-- Witness of C2: the block appended by one `AddBlock` call. -/
theorem hash_self_consistency_witness :
    (createBlock (genesisBlock sampleTime0) sampleCheckout sampleTime1).validateHash
        (createBlock (genesisBlock sampleTime0) sampleCheckout sampleTime1).Hash =
      (true, createBlock (genesisBlock sampleTime0) sampleCheckout sampleTime1) := by
  obtain ⟨bc, hbc, h⟩ := hash_self_consistency sampleTime0 [(sampleCheckout, sampleTime1)]
  have hs : bc = sampleChain := by
    rw [addBlocks_sample] at hbc
    exact (Option.some.inj hbc).symm
  subst hs
  exact (h _ (by simp [sampleChain])).2.2

/-- C3, as the claim states it, fails: the genesis block has `Pos == 1`, and
the first appended block has `Pos == 2`. -/
theorem absolute_positions_counterexample :
    (genesisBlock sampleTime0).Pos ≠ 0 ∧
      (addBlocks (NewBlockchain sampleTime0) [(sampleCheckout, sampleTime1)]).map
        (fun bc => bc.blocks.map block.Pos) = some [1, 2] := by
  refine ⟨by decide, ?_⟩
  rw [addBlocks_sample]
  decide

/-- C3, amended.  In the chain built by `NewBlockchain()` and `N` `AddBlock`
calls there are `N + 1` blocks and `blocks[i].Pos == i + 1` for every `i` in
`[0, N]` (`i + 1` wrapped to a Go `int`, which is `i + 1` itself below `2^63`);
the genesis block has `Pos == 1`. -/
theorem absolute_positions (t0 : GoString) (calls : List (bookCheckout × GoString)) :
    (genesisBlock t0).Pos = 1 ∧
    ∃ bc, addBlocks (NewBlockchain t0) calls = some bc ∧
      bc.blocks.length = calls.length + 1 ∧
      ∀ (i : Nat) (h : i < bc.blocks.length),
        bc.blocks[i].Pos = wrapInt ((i : Int) + 1) ∧
        (i + 1 < 9223372036854775808 → bc.blocks[i].Pos = (i : Int) + 1) := by
  refine ⟨rfl, ?_⟩
  obtain ⟨bc, hbc, hinv, hlen⟩ := addBlocks_NewBlockchain t0 calls
  refine ⟨bc, hbc, hlen, ?_⟩
  intro i h
  have hp := hinv.pos i _ (List.getElem?_eq_getElem h)
  refine ⟨hp, ?_⟩
  intro hi
  rw [hp]
  exact wrapInt_of_range _ (by omega) (by omega)

/-- Witness of the amended C3: the chain after one `AddBlock` call, at index 1. -/
theorem absolute_positions_witness :
    (sampleChain.blocks.getD 1 block.zero).Pos = 2 := by
  obtain ⟨_, bc, hbc, hlen, h⟩ := absolute_positions sampleTime0 [(sampleCheckout, sampleTime1)]
  have hs : bc = sampleChain := by
    rw [addBlocks_sample] at hbc
    exact (Option.some.inj hbc).symm
  subst hs
  exact (h 1 (by decide)).2 (by decide)

/-- C4 (successful append).  On a chain with last block `tail`, when
`AddBlock(p)` appends (its `validBlock` guard holds and the chain changes), the
new sequence is the old one with exactly one block `b` added at the end, with
`b.PrevHash == tail.Hash`, `b.Pos == tail.Pos + 1` (the `+` of Go on `int`,
which is the `+` of the integers unless `tail.Pos` is the largest `int`) and
`b.Data == p`. -/
theorem AddBlock_appended (bc bc1 : blockChain) (p : bookCheckout) (now : GoString)
    (tail : block) (htail : bc.blocks.getLast? = some tail)
    (hadd : bc.AddBlock p now = some bc1) (happ : bc1.blocks ≠ bc.blocks) :
    bc1.blocks.length = bc.blocks.length + 1 ∧
    ∃ b, bc1.blocks = bc.blocks ++ [b] ∧ bc1.blocks.getLast? = some b ∧
      b.PrevHash = tail.Hash ∧ b.Pos = intAdd tail.Pos 1 ∧ b.Data = p ∧
      (-9223372036854775808 ≤ tail.Pos → tail.Pos < 9223372036854775807 →
        b.Pos = tail.Pos + 1) := by
  simp only [blockChain.AddBlock, htail, appendIfValid, Option.some.injEq] at hadd
  by_cases hv : (validBlock (createBlock tail p now) tail).1 = true
  · rw [if_pos hv] at hadd
    subst hadd
    obtain ⟨h1, h2, _, h4⟩ := validBlock_snd (createBlock tail p now) tail
    refine ⟨by simp, _, rfl, by simp, ?_, ?_, ?_, ?_⟩
    · rw [h4]; rfl
    · rw [h1]; rfl
    · rw [h2]; rfl
    · intro hlo hhi
      rw [h1, createBlock_Pos]
      exact intAdd_of_range _ hlo hhi
  · rw [if_neg hv] at hadd
    subst hadd
    exact absurd rfl happ

/-- Witness of C4: the first `AddBlock` on a new chain. -/
theorem AddBlock_appended_witness :
    sampleChain.blocks.length = (NewBlockchain sampleTime0).blocks.length + 1 ∧
    ∃ b, sampleChain.blocks = (NewBlockchain sampleTime0).blocks ++ [b] ∧
      sampleChain.blocks.getLast? = some b ∧
      b.PrevHash = (genesisBlock sampleTime0).Hash ∧ b.Pos = intAdd (genesisBlock sampleTime0).Pos 1 ∧
      b.Data = sampleCheckout ∧
      (-9223372036854775808 ≤ (genesisBlock sampleTime0).Pos →
        (genesisBlock sampleTime0).Pos < 9223372036854775807 →
        b.Pos = (genesisBlock sampleTime0).Pos + 1) :=
  AddBlock_appended (NewBlockchain sampleTime0) sampleChain sampleCheckout sampleTime1
    (genesisBlock sampleTime0) rfl
    (AddBlock_of_getLast (NewBlockchain sampleTime0) (genesisBlock sampleTime0) sampleCheckout
      sampleTime1 rfl)
    (by simp [sampleChain, NewBlockchain])

set_option maxRecDepth 1000000 in
/-- C5, as the claim states it, fails: `json.Marshal` writes every byte that is
not valid UTF-8 as U+FFFD (here its escape `\ufffd`), so overwriting the
`User` `"\xff"` of a stored block by `"\xfe"` leaves the digest as it was and
`validateHash(b, b.Hash)` returns true. -/
theorem tamper_detection_counterexample :
    sampleStored.Hash = sampleStored.generateHash.Hash ∧
      sampleTampered.Data ≠ sampleStored.Data ∧
      sampleTampered.Pos = sampleStored.Pos ∧
      sampleTampered.TimeStamp = sampleStored.TimeStamp ∧
      sampleTampered.PrevHash = sampleStored.PrevHash ∧
      sampleTampered.Hash = sampleStored.Hash ∧
      (sampleTampered.validateHash sampleTampered.Hash).1 = true := by
  have hin : sampleTampered.digestInput = sampleStored.digestInput := by decide
  refine ⟨rfl, by decide, rfl, rfl, rfl, rfl, ?_⟩
  rw [block.validateHash_eq]
  simp only [decide_eq_true_eq]
  show hexEncodeToString (sha256Sum sampleTampered.digestInput) =
    hexEncodeToString (sha256Sum sampleStored.digestInput)
  rw [hin]

/-- C5, amended.  For a block `b` whose stored `Hash` was produced by
`generateHash`, and `b1` the same block after fields other than `Hash` were
changed: `validateHash(b1, b1.Hash)` returns false exactly when the SHA-256
digest of the text that `generateHash` hashes for `b1` differs from that of
`b`.  That text changes with every change of `TimeStamp` alone, of `PrevHash`
alone, of `Data` alone when the JSON of the payload changes, which it does
between any two payloads of valid UTF-8 strings, and of `Pos` alone when the
text written for the position changes, which it does between any two valid
code points. -/
theorem tamper_detection (b b1 : block) (hgen : b.Hash = b.generateHash.Hash)
    (hkeep : b1.Hash = b.Hash) :
    ((b1.validateHash b1.Hash).1 = false ↔
        sha256Sum b1.digestInput ≠ sha256Sum b.digestInput) ∧
      (b1.Pos = b.Pos → b1.Data = b.Data → b1.PrevHash = b.PrevHash →
        b1.TimeStamp ≠ b.TimeStamp → b1.digestInput ≠ b.digestInput) ∧
      (b1.Pos = b.Pos → b1.Data = b.Data → b1.TimeStamp = b.TimeStamp →
        b1.PrevHash ≠ b.PrevHash → b1.digestInput ≠ b.digestInput) ∧
      (b1.Pos = b.Pos → b1.TimeStamp = b.TimeStamp → b1.PrevHash = b.PrevHash →
        jsonMarshal b1.Data ≠ jsonMarshal b.Data → b1.digestInput ≠ b.digestInput) ∧
      (b.Data.validText = true → b1.Data.validText = true → b1.Data ≠ b.Data →
        jsonMarshal b1.Data ≠ jsonMarshal b.Data) ∧
      (b1.Data = b.Data → b1.TimeStamp = b.TimeStamp → b1.PrevHash = b.PrevHash →
        intToString b1.Pos ≠ intToString b.Pos → b1.digestInput ≠ b.digestInput) ∧
      (0 ≤ b.Pos ∧ b.Pos ≤ 0x10FFFF ∧ ¬ (0xD800 ≤ b.Pos ∧ b.Pos ≤ 0xDFFF) →
        0 ≤ b1.Pos ∧ b1.Pos ≤ 0x10FFFF ∧ ¬ (0xD800 ≤ b1.Pos ∧ b1.Pos ≤ 0xDFFF) →
        b1.Pos ≠ b.Pos → intToString b1.Pos ≠ intToString b.Pos) := by
  refine ⟨?_, ?_, ?_, ?_, ?_, ?_, ?_⟩
  · rw [block.validateHash_eq, hkeep, hgen]
    simp only [decide_eq_false_iff_not]
    show ¬ hexEncodeToString (sha256Sum b1.digestInput) =
      hexEncodeToString (sha256Sum b.digestInput) ↔ _
    constructor
    · intro h e
      exact h (by rw [e])
    · intro h e
      exact h (hexEncodeToString_inj _ _ e)
  · intro h1 h2 h3 h4 e
    simp only [block.digestInput, h1, h2, h3, List.append_assoc, List.append_cancel_left_eq,
      List.append_cancel_right_eq] at e
    exact h4 e
  · intro h1 h2 h3 h4 e
    simp only [block.digestInput, h1, h2, h3, List.append_cancel_left_eq] at e
    exact h4 e
  · intro h1 h2 h3 h4 e
    simp only [block.digestInput, h1, h2, h3, List.append_assoc, List.append_cancel_left_eq,
      List.append_cancel_right_eq] at e
    exact h4 e
  · intro hv hv1 hne e
    exact hne (jsonMarshal_inj _ _ hv1 hv e)
  · intro h1 h2 h3 h4 e
    simp only [block.digestInput, h1, h2, h3, List.append_assoc,
      List.append_cancel_right_eq] at e
    exact h4 e
  · intro hp hp1 hne e
    exact hne (intToString_inj _ _ hp1 hp e)

set_option maxRecDepth 1000000 in
/-- Witness of the amended C5, on the block appended by the first `AddBlock`:
when its `TimeStamp` is overwritten `validateHash` returns false; when the
`User` of its payload is overwritten by another valid string, the hashed text
changes and `validateHash` returns false. -/
theorem tamper_detection_witness :
    (sampleRedated.validateHash sampleRedated.Hash).1 = false ∧
      sampleRenamed.digestInput ≠
        (createBlock (genesisBlock sampleTime0) sampleCheckout sampleTime1).digestInput ∧
      (sampleRenamed.validateHash sampleRenamed.Hash).1 = false :=
  ⟨(tamper_detection (createBlock (genesisBlock sampleTime0) sampleCheckout sampleTime1)
      sampleRedated rfl rfl).1.mpr (by decide),
    (tamper_detection (createBlock (genesisBlock sampleTime0) sampleCheckout sampleTime1)
      sampleRenamed rfl rfl).2.2.2.1 rfl rfl rfl
      ((tamper_detection (createBlock (genesisBlock sampleTime0) sampleCheckout sampleTime1)
        sampleRenamed rfl rfl).2.2.2.2.1 (by decide) (by decide) (by decide)),
    (tamper_detection (createBlock (genesisBlock sampleTime0) sampleCheckout sampleTime1)
      sampleRenamed rfl rfl).1.mpr (by decide)⟩

set_option maxRecDepth 1000000 in
/-- C6 at the genesis block, whose `Pos` is 1: the text that `generateHash`
hashes starts with the byte `0x01`, the conversion `string(1)`, where the
claim has the digit `"1"`; the stored `Hash` is not the digest of the text
the claim describes. -/
theorem generateHash_position_not_numeric_text :
    (genesisBlock sampleTime0).Pos = 1 ∧
      intToString (genesisBlock sampleTime0).Pos = [0x01] ∧
      positionText (genesisBlock sampleTime0).Pos = ofString "1" ∧
      (genesisBlock sampleTime0).digestInput ≠ specDigestInput (genesisBlock sampleTime0) ∧
      (genesisBlock sampleTime0).generateHash.Hash ≠
        hexEncodeToString (sha256Sum (specDigestInput (genesisBlock sampleTime0))) := by
  refine ⟨rfl, by decide, by decide, by decide, by decide⟩

/-- C7 (append-only).  On a non-empty chain `AddBlock` does not panic, the old
block sequence is a prefix of the new one, every old block is found unchanged
at its old index, and the new length is the old length or the old length + 1.
The only block `AddBlock` writes to is the candidate that `createBlock` has
just allocated. -/
theorem AddBlock_append_only (bc : blockChain) (p : bookCheckout) (now : GoString)
    (hne : bc.blocks ≠ []) :
    ∃ bc1, bc.AddBlock p now = some bc1 ∧
      (∃ ext, bc1.blocks = bc.blocks ++ ext) ∧
      bc1.blocks.take bc.blocks.length = bc.blocks ∧
      (∀ (i : Nat) (h : i < bc.blocks.length), bc1.blocks[i]? = some bc.blocks[i]) ∧
      (bc1.blocks.length = bc.blocks.length ∨ bc1.blocks.length = bc.blocks.length + 1) := by
  obtain ⟨tail, htail⟩ : ∃ tail, bc.blocks.getLast? = some tail :=
    ⟨bc.blocks.getLast hne, List.getLast?_eq_getLast _ hne⟩
  refine ⟨appendIfValid bc (createBlock tail p now) tail, ?_, ?_⟩
  · simp [blockChain.AddBlock, htail]
  · unfold appendIfValid
    dsimp only
    split_ifs with hv
    · refine ⟨⟨_, rfl⟩, by simp, ?_, Or.inr (by simp)⟩
      intro i h
      rw [List.getElem?_append_left h]
      exact List.getElem?_eq_getElem h
    · refine ⟨⟨[], by simp⟩, by simp, ?_, Or.inl rfl⟩
      intro i h
      exact List.getElem?_eq_getElem h

/-- Witness of C7: `AddBlock` on a new chain. -/
theorem AddBlock_append_only_witness :
    ∃ bc1, (NewBlockchain sampleTime0).AddBlock sampleCheckout sampleTime1 = some bc1 ∧
      (∃ ext, bc1.blocks = (NewBlockchain sampleTime0).blocks ++ ext) ∧
      bc1.blocks.take (NewBlockchain sampleTime0).blocks.length =
        (NewBlockchain sampleTime0).blocks ∧
      (∀ (i : Nat) (h : i < (NewBlockchain sampleTime0).blocks.length),
        bc1.blocks[i]? = some (NewBlockchain sampleTime0).blocks[i]) ∧
      (bc1.blocks.length = (NewBlockchain sampleTime0).blocks.length ∨
        bc1.blocks.length = (NewBlockchain sampleTime0).blocks.length + 1) :=
  AddBlock_append_only (NewBlockchain sampleTime0) sampleCheckout sampleTime1
    (by simp [NewBlockchain])

/-- C8 (rejected append).  On a chain with last block `tail`, a candidate whose
`PrevHash` differs from `tail.Hash` is rejected by `validBlock` (which does
not touch it), and the guarded append of `AddBlock` leaves the chain as it
is: same blocks, same length, same tail. -/
theorem rejected_append (bc : blockChain) (cand tail : block)
    (htail : bc.blocks.getLast? = some tail) (hbad : cand.PrevHash ≠ tail.Hash) :
    validBlock cand tail = (false, cand) ∧
      appendIfValid bc cand tail = bc ∧
      (appendIfValid bc cand tail).blocks.length = bc.blocks.length ∧
      (appendIfValid bc cand tail).blocks.getLast? = some tail := by
  have hv : validBlock cand tail = (false, cand) := by
    unfold validBlock
    rw [if_pos hbad]
  have ha : appendIfValid bc cand tail = bc := by
    unfold appendIfValid
    rw [hv]
    rfl
  exact ⟨hv, ha, by rw [ha], by rw [ha]; exact htail⟩

set_option maxRecDepth 1000000 in
/-- Witness of C8: a candidate with a wrong `PrevHash` on a new chain. -/
theorem rejected_append_witness :
    validBlock sampleMislinked (genesisBlock sampleTime0) = (false, sampleMislinked) ∧
      appendIfValid (NewBlockchain sampleTime0) sampleMislinked (genesisBlock sampleTime0) =
        NewBlockchain sampleTime0 ∧
      (appendIfValid (NewBlockchain sampleTime0) sampleMislinked
        (genesisBlock sampleTime0)).blocks.length = (NewBlockchain sampleTime0).blocks.length ∧
      (appendIfValid (NewBlockchain sampleTime0) sampleMislinked
        (genesisBlock sampleTime0)).blocks.getLast? = some (genesisBlock sampleTime0) :=
  rejected_append (NewBlockchain sampleTime0) sampleMislinked (genesisBlock sampleTime0) rfl
    (by decide)

set_option maxRecDepth 1000000 in
/-- C9, as the claim states it, fails: `validateHash` on the zero block
`block{}`, whose stored `Hash` is empty, leaves the 64 hex digits of the
re-derived digest in `Hash`. -/
theorem validateHash_stores_counterexample :
    (block.zero.validateHash []).2.Hash ≠ block.zero.Hash ∧
      (block.zero.validateHash []).2.Hash.length = 64 := by
  refine ⟨by decide, by decide⟩

/-- C9, amended.  For every block `b` and claimed hash `h`, `validateHash(b, h)`
leaves `Pos`, `Data`, `TimeStamp` and `PrevHash` of `b` as they were and
stores the re-derived digest in `Hash`; so `b` is left exactly as it was if
and only if its stored `Hash` already was that digest.  The returned boolean
is the comparison of the re-derived digest with `h`. -/
theorem validateHash_frame (b : block) (h : GoString) :
    (b.validateHash h).2.Pos = b.Pos ∧ (b.validateHash h).2.Data = b.Data ∧
      (b.validateHash h).2.TimeStamp = b.TimeStamp ∧
      (b.validateHash h).2.PrevHash = b.PrevHash ∧
      (b.validateHash h).2.Hash = hexEncodeToString (sha256Sum b.digestInput) ∧
      ((b.validateHash h).2 = b ↔ b.Hash = hexEncodeToString (sha256Sum b.digestInput)) ∧
      ((b.validateHash h).1 = true ↔ hexEncodeToString (sha256Sum b.digestInput) = h) := by
  refine ⟨rfl, rfl, rfl, rfl, rfl, ?_, ?_⟩
  · constructor
    · intro e
      have := congrArg block.Hash e
      exact this.symm
    · intro e
      cases b with
      | mk pos data ts hash prev =>
        simp only [block.validateHash_eq, block.generateHash, block.mk.injEq, true_and, and_true]
        exact e.symm
  · simp [block.validateHash_eq, block.generateHash]

/-- C10 (genesis shape).  The chain returned by `NewBlockchain()` has the single
block `genesisBlock()`, whose `PrevHash` is empty and whose payload has
`IsGenesis == true` and empty `BookID`, `User` and `CheckoutDate`; and
`blocks[0]` of every chain built from it by `AddBlock` calls is that block. -/
theorem genesis_shape (t0 : GoString) (calls : List (bookCheckout × GoString)) :
    (NewBlockchain t0).blocks = [genesisBlock t0] ∧
      (genesisBlock t0).PrevHash = [] ∧
      (genesisBlock t0).Data.IsGenesis = true ∧
      (genesisBlock t0).Data.BookID = [] ∧
      (genesisBlock t0).Data.User = [] ∧
      (genesisBlock t0).Data.CheckoutDate = [] ∧
      ∃ bc, addBlocks (NewBlockchain t0) calls = some bc ∧
        bc.blocks[0]? = some (genesisBlock t0) := by
  refine ⟨rfl, rfl, rfl, rfl, rfl, rfl, ?_⟩
  obtain ⟨bc, hbc, hinv, _⟩ := addBlocks_NewBlockchain t0 calls
  refine ⟨bc, hbc, ?_⟩
  have := hinv.head
  cases hb : bc.blocks with
  | nil => rw [hb] at this; simp at this
  | cons x xs => rw [hb] at this; simpa using this

/-- C11 (idempotent validation).  For every block `b` and claimed hash `h`, a
second call `validateHash(b, h)`, on the block as the first call left it,
returns the same boolean as the first, and leaves the block as the first call
left it. -/
theorem validateHash_idempotent (b : block) (h : GoString) :
    ((b.validateHash h).2.validateHash h).1 = (b.validateHash h).1 ∧
      ((b.validateHash h).2.validateHash h).2 = (b.validateHash h).2 := by
  simp only [block.validateHash_eq, block.generateHash_idem, and_self]

/-- C13 (`validBlock` is the conjunction of three checks).  For every candidate
`b` and predecessor `prev`, `validBlock(b, prev)` returns true if and only if
`b.PrevHash == prev.Hash`, the digest recomputed from `b.Pos`, `b.TimeStamp`,
`b.Data` and `b.PrevHash` equals the `Hash` that `b` stores when the call is
made, and `prev.Pos + 1 == b.Pos` (the `+` of Go on `int`, which is the `+` of
the integers unless `prev.Pos` is the largest `int`). -/
theorem validBlock_iff (b prev : block) :
    ((validBlock b prev).1 = true ↔
      b.PrevHash = prev.Hash ∧
      hexEncodeToString (sha256Sum
        (intToString b.Pos ++ b.TimeStamp ++ jsonMarshal b.Data ++ b.PrevHash)) = b.Hash ∧
      intAdd prev.Pos 1 = b.Pos) ∧
    (-9223372036854775808 ≤ prev.Pos → prev.Pos < 9223372036854775807 →
      ((validBlock b prev).1 = true ↔
        b.PrevHash = prev.Hash ∧
        hexEncodeToString (sha256Sum
          (intToString b.Pos ++ b.TimeStamp ++ jsonMarshal b.Data ++ b.PrevHash)) = b.Hash ∧
        prev.Pos + 1 = b.Pos)) := by
  have h := validBlock_fst b prev
  refine ⟨h, ?_⟩
  intro hlo hhi
  rw [intAdd_of_range _ hlo hhi] at h
  exact h

set_option maxRecDepth 1000000 in
/-- Witness of C13: the block that `createBlock` makes from a genesis block
passes the three checks. -/
theorem validBlock_iff_witness :
    (validBlock (createBlock (genesisBlock sampleTime0) sampleCheckout sampleTime1)
      (genesisBlock sampleTime0)).1 = true :=
  ((validBlock_iff (createBlock (genesisBlock sampleTime0) sampleCheckout sampleTime1)
    (genesisBlock sampleTime0)).2 (by decide) (by decide)).mpr ⟨rfl, rfl, by decide⟩

/-- C14 (`createBlock` postcondition).  For every predecessor `prev`, payload
`d` and time `t` read from the clock, `createBlock(prev, d)` returns a block
with `Pos == prev.Pos + 1` (the `+` of Go on `int`), `Data == d`,
`TimeStamp == t`, `PrevHash == prev.Hash` and `Hash` the digest of these four
fields.  It is a total function of `prev`, `d` and `t`, and only reads `prev`. -/
theorem createBlock_postcondition (prev : block) (d : bookCheckout) (t : GoString) :
    (createBlock prev d t).Pos = intAdd prev.Pos 1 ∧
      (createBlock prev d t).Data = d ∧
      (createBlock prev d t).TimeStamp = t ∧
      (createBlock prev d t).PrevHash = prev.Hash ∧
      (createBlock prev d t).Hash = hexEncodeToString (sha256Sum
        (intToString (intAdd prev.Pos 1) ++ t ++ jsonMarshal d ++ prev.Hash)) ∧
      (createBlock prev d t).Hash = hexEncodeToString (sha256Sum
        (intToString (createBlock prev d t).Pos ++ (createBlock prev d t).TimeStamp ++
          jsonMarshal (createBlock prev d t).Data ++ (createBlock prev d t).PrevHash)) ∧
      (-9223372036854775808 ≤ prev.Pos → prev.Pos < 9223372036854775807 →
        (createBlock prev d t).Pos = prev.Pos + 1) := by
  refine ⟨rfl, rfl, rfl, rfl, rfl, rfl, ?_⟩
  intro hlo hhi
  rw [createBlock_Pos]
  exact intAdd_of_range _ hlo hhi

/-- Witness of C14: the block made from a genesis block has `Pos` 2. -/
theorem createBlock_postcondition_witness :
    (createBlock (genesisBlock sampleTime0) sampleCheckout sampleTime1).Pos =
      (genesisBlock sampleTime0).Pos + 1 :=
  (createBlock_postcondition (genesisBlock sampleTime0) sampleCheckout sampleTime1).2.2.2.2.2.2
    (by decide) (by decide)

/-- C15 (`AddBlock` never rejects).  For every predecessor, payload and time,
`validBlock(createBlock(prev, d), prev)` returns true; so on every non-empty
chain `AddBlock` takes its append branch: the chain grows by exactly one
block, the block that `createBlock` made from the old tail. -/
theorem AddBlock_never_rejects (bc : blockChain) (d : bookCheckout) (t : GoString)
    (hne : bc.blocks ≠ []) :
    (∀ prev : block, validBlock (createBlock prev d t) prev = (true, createBlock prev d t)) ∧
      ∃ bc1 tail, bc.blocks.getLast? = some tail ∧ bc.AddBlock d t = some bc1 ∧
        (validBlock (createBlock tail d t) tail).1 = true ∧
        bc1.blocks = bc.blocks ++ [createBlock tail d t] ∧
        bc1.blocks.length = bc.blocks.length + 1 := by
  refine ⟨fun prev => validBlock_createBlock prev d t, ?_⟩
  have htail : bc.blocks.getLast? = some (bc.blocks.getLast hne) :=
    List.getLast?_eq_getLast _ hne
  refine ⟨_, bc.blocks.getLast hne, htail, AddBlock_of_getLast bc _ d t htail, ?_, rfl, ?_⟩
  · rw [validBlock_createBlock]
  · simp

/-- Witness of C15: `AddBlock` on a new chain. -/
theorem AddBlock_never_rejects_witness :
    ∃ bc1, (NewBlockchain sampleTime0).AddBlock sampleCheckout sampleTime1 = some bc1 ∧
      bc1.blocks.length = 2 := by
  obtain ⟨_, bc1, tail, _, h1, _, _, h2⟩ :=
    AddBlock_never_rejects (NewBlockchain sampleTime0) sampleCheckout sampleTime1
      (by simp [NewBlockchain])
  exact ⟨bc1, h1, by rw [h2]; rfl⟩

/-- C16 (tail access is safe).  Every chain built from `NewBlockchain()` by
`AddBlock` calls has at least one block, so it has a last block and a further
`AddBlock` does not panic; `AddBlock` panics exactly on an empty chain. -/
theorem tail_access_safe (t0 : GoString) (calls : List (bookCheckout × GoString)) :
    (∃ bc, addBlocks (NewBlockchain t0) calls = some bc ∧
      0 < bc.blocks.length ∧
      (∃ tail, bc.blocks.getLast? = some tail ∧
        bc.blocks[bc.blocks.length - 1]? = some tail) ∧
      ∀ (d : bookCheckout) (t : GoString), bc.AddBlock d t ≠ none) ∧
    (∀ (bc : blockChain) (d : bookCheckout) (t : GoString),
      bc.AddBlock d t = none ↔ bc.blocks = []) := by
  have hpanic : ∀ (bc : blockChain) (d : bookCheckout) (t : GoString),
      bc.AddBlock d t = none ↔ bc.blocks = [] := by
    intro bc d t
    unfold blockChain.AddBlock
    cases h : bc.blocks.getLast? with
    | none => simpa using h
    | some p =>
      constructor
      · intro hn
        exact absurd hn (by simp)
      · intro hnil
        rw [hnil] at h
        simp at h
  refine ⟨?_, hpanic⟩
  obtain ⟨bc, hbc, _, hlen⟩ := addBlocks_NewBlockchain t0 calls
  have hne : bc.blocks ≠ [] := by
    intro hnil
    rw [hnil] at hlen
    simp at hlen
  refine ⟨bc, hbc, by omega, ⟨bc.blocks.getLast hne, List.getLast?_eq_getLast _ hne, ?_⟩, ?_⟩
  · rw [← List.getLast?_eq_getElem?]
    exact List.getLast?_eq_getLast _ hne
  · intro d t hn
    exact hne ((hpanic bc d t).mp hn)

set_option maxRecDepth 1000000 in
/-- C17 (`validBlock` is not idempotent on an inconsistent candidate).  There
are a candidate `b` and a predecessor `prev` with `b.PrevHash == prev.Hash`,
`prev.Pos + 1 == b.Pos` and a stored `Hash` that is not the digest of the
fields of `b`, such that `validBlock(b, prev)` returns false and the same call
repeated on the same block returns true: the first call has overwritten
`b.Hash` with the recomputed digest. -/
theorem validBlock_not_idempotent :
    ∃ b prev : block,
      b.PrevHash = prev.Hash ∧ prev.Pos + 1 = b.Pos ∧ intAdd prev.Pos 1 = b.Pos ∧
      b.Hash ≠ hexEncodeToString (sha256Sum
        (intToString b.Pos ++ b.TimeStamp ++ jsonMarshal b.Data ++ b.PrevHash)) ∧
      (validBlock b prev).1 = false ∧
      (validBlock b prev).2.Hash = hexEncodeToString (sha256Sum
        (intToString b.Pos ++ b.TimeStamp ++ jsonMarshal b.Data ++ b.PrevHash)) ∧
      (validBlock (validBlock b prev).2 prev).1 = true := by
  have hstale : sampleRedated.generateHash.Hash ≠ sampleRedated.Hash := by decide
  obtain ⟨e1, e2⟩ := validBlock_repeat sampleRedated (genesisBlock sampleTime0) rfl rfl hstale
  refine ⟨sampleRedated, genesisBlock sampleTime0, rfl, by decide, rfl, ?_, ?_, ?_, ?_⟩
  · exact fun e => hstale e.symm
  · rw [e1]
  · rw [e1]; rfl
  · rw [e2]

/-- C18 (the position enters the digest through a conversion that is not
injective).  The positions `-1` and `0x110000` are distinct, and two blocks
with these positions and the same `TimeStamp`, `Data` and `PrevHash` get the
same `Hash` from `generateHash`; so do any two blocks whose positions are not
valid code points (negative, a surrogate in `0xD800..0xDFFF`, or above
`0x10FFFF`), since `string(Pos)` is then the text of U+FFFD. -/
theorem position_encoding_not_injective :
    (∃ p q : Int, p ≠ q ∧
      ∀ (d : bookCheckout) (ts ph h1 h2 : GoString),
        (block.generateHash
          { Pos := p, Data := d, TimeStamp := ts, Hash := h1, PrevHash := ph }).Hash =
        (block.generateHash
          { Pos := q, Data := d, TimeStamp := ts, Hash := h2, PrevHash := ph }).Hash) ∧
    (∀ p q : Int,
      (p < 0 ∨ (0xD800 ≤ p ∧ p ≤ 0xDFFF) ∨ 0x10FFFF < p) →
      (q < 0 ∨ (0xD800 ≤ q ∧ q ≤ 0xDFFF) ∨ 0x10FFFF < q) →
      intToString p = intToString q ∧
      ∀ (d : bookCheckout) (ts ph h1 h2 : GoString),
        (block.generateHash
          { Pos := p, Data := d, TimeStamp := ts, Hash := h1, PrevHash := ph }).Hash =
        (block.generateHash
          { Pos := q, Data := d, TimeStamp := ts, Hash := h2, PrevHash := ph }).Hash) := by
  have hall : ∀ p q : Int,
      (p < 0 ∨ (0xD800 ≤ p ∧ p ≤ 0xDFFF) ∨ 0x10FFFF < p) →
      (q < 0 ∨ (0xD800 ≤ q ∧ q ≤ 0xDFFF) ∨ 0x10FFFF < q) →
      intToString p = intToString q ∧
      ∀ (d : bookCheckout) (ts ph h1 h2 : GoString),
        (block.generateHash
          { Pos := p, Data := d, TimeStamp := ts, Hash := h1, PrevHash := ph }).Hash =
        (block.generateHash
          { Pos := q, Data := d, TimeStamp := ts, Hash := h2, PrevHash := ph }).Hash := by
    intro p q hp hq
    have e : intToString p = intToString q := by
      rw [intToString_invalid p hp, intToString_invalid q hq]
    refine ⟨e, ?_⟩
    intro d ts ph h1 h2
    simp only [block.generateHash, block.digestInput, e]
  refine ⟨⟨-1, 0x110000, by decide, ?_⟩, hall⟩
  exact (hall (-1) 0x110000 (by decide) (by decide)).2

set_option maxRecDepth 1000000 in
/-- Witness of C18: a block at position `-1` and one at the surrogate `0xD800`,
alike in `TimeStamp`, `Data` and `PrevHash`, with the hash they share. -/
theorem position_encoding_not_injective_witness :
    (block.generateHash
      { Pos := -1, Data := sampleCheckout, TimeStamp := sampleTime1, Hash := [],
        PrevHash := [] }).Hash =
    (block.generateHash
      { Pos := 0xD800, Data := sampleCheckout, TimeStamp := sampleTime1, Hash := [],
        PrevHash := [] }).Hash :=
  (position_encoding_not_injective.2 (-1) 0xD800 (by decide) (by decide)).2
    sampleCheckout sampleTime1 [] [] []
